import Mathlib

/-!
# gobuster: a verification development

A shallow embedding of `src/gobuster.go` (package `main`) and theorems about it.

Conventions of the embedding.

* A Go `string` is a Lean `String`; the `strings` helpers used by the program
  (`HasPrefix`, `Replace`, `ToLower`) are defined on the character list.
* A Go `int` is a Lean `Int`; every arithmetic result goes through `wrap64`
  (two's complement wrap-around of the `int` of a 64 bit platform).
* A run-time panic (division by zero, slice bounds out of range, `make` with a
  length out of range) and the fatal error of an allocation that the machine
  cannot serve are `none`.
* The network, standard input and the file system are explicit arguments.
-/

namespace Gobuster

/-! ## Machine integers and slices -/

/-- Two's complement wrap-around of a 64 bit Go `int`. -/
def wrap64 (x : Int) : Int := (x + 2 ^ 63) % 2 ^ 64 - 2 ^ 63

/-- Go's `a / b` on `int`: truncated division, a panic (`none`) when `b = 0`. -/
def goDiv (a b : Int) : Option Int :=
  if b = 0 then none else some (wrap64 (Int.tdiv a b))

/-- Go's slice expression `s[lo:hi]` on a slice whose capacity equals its
length: a panic (`none`) unless `0 <= lo <= hi <= len(s)`. (Go checks `hi`
against `cap(s)`, which is at least `len(s)`; a slice expression accepted here
is accepted by Go and denotes the same elements.) -/
def sliceExpr {α : Type} (s : List α) (lo hi : Int) : Option (List α) :=
  if 0 ≤ lo ∧ lo ≤ hi ∧ hi ≤ (s.length : Int) then
    some ((s.drop lo.toNat).take (hi.toNat - lo.toNat))
  else none

/-! ## The partitioning loop of `main` (lines 118-129) -/

/-- The `start` of iteration `i` (line 122). -/
def chunkStart (chunkSize i : Int) : Int := wrap64 (i * chunkSize)

/-- The `end` of iteration `i` (lines 123-127): `(i + 1) * chunkSize`,
overwritten with `len(dictionary)` in the iteration `i == *workers-1`. -/
def chunkEnd (len workers chunkSize i : Int) : Int :=
  if i = wrap64 (workers - 1) then len else wrap64 (wrap64 (i + 1) * chunkSize)

/-- The body of `for i := range chunks`, run for the indices `is` in turn:
`chunks[i] = dictionary[start:end]`. -/
def fillChunks (dictionary : List String) (workers chunkSize : Int) :
    List Nat → Option (List (List String))
  | [] => some []
  | i :: is =>
    match sliceExpr dictionary (chunkStart chunkSize i)
        (chunkEnd dictionary.length workers chunkSize i) with
    | none => none
    | some chunk =>
      match fillChunks dictionary workers chunkSize is with
      | none => none
      | some chunks => some (chunk :: chunks)

/-- Go's run-time constant `maxAlloc`, the largest size in bytes of one
allocation, on a 64 bit platform with 48 address bits (linux/amd64). -/
def maxAlloc : Nat := 2 ^ 48

/-- The size in bytes of a value of type `[]string` (pointer, length and
capacity), the element type of `chunks`. -/
def sliceHeaderSize : Nat := 24

/-- Line 120, `make([][]string, n)`, on a machine on which `memory` bytes can
still be allocated. `none` when the program stops there: the run-time panic
"makeslice: len out of range" for a negative `n` and for an `n` whose
`24 * n` bytes exceed `maxAlloc`, and the fatal error "out of memory" when they
exceed `memory`. Otherwise the value is the length of the new slice. -/
def makeChunks (memory : Nat) (n : Int) : Option Nat :=
  if n < 0 then none
  else if maxAlloc < sliceHeaderSize * n.toNat then none
  else if memory < sliceHeaderSize * n.toNat then none
  else some n.toNat

/-- Lines 119-129: `chunkSize := len(dictionary) / *workers`,
`chunks := make([][]string, *workers)` and the loop filling `chunks`, on a
machine on which `memory` bytes can still be allocated. -/
def partition (memory : Nat) (dictionary : List String) (workers : Int) :
    Option (List (List String)) :=
  match goDiv dictionary.length workers with
  | none => none
  | some chunkSize =>
    match makeChunks memory workers with
    | none => none
    | some len => fillChunks dictionary workers chunkSize (List.range len)

/-- The chunk of worker `i` written with natural-number cut points: the part of
`dictionary` from `i * (L / W)` up to `(i + 1) * (L / W)`, or up to the end of
`dictionary` for the last worker. Used only to state facts about `partition`. -/
def chunkAt (dictionary : List String) (W i : Nat) : List String :=
  (dictionary.drop (i * (dictionary.length / W))).take
    (if i + 1 = W then dictionary.length - i * (dictionary.length / W)
     else dictionary.length / W)

/-! ## Strings -/

/-- Go's `strings.HasPrefix(s, pre)`. -/
def startsWith (s pre : String) : Bool := pre.data.isPrefixOf s.data

/-- Go's `strings.Replace(s, old, new, 1)` on character lists: the first
occurrence of `old` in `s`, scanning from the left, is replaced by `new`. -/
def replaceFirstChars (old new : List Char) : List Char → List Char
  | [] => if old = [] then new else []
  | c :: cs =>
    if old.isPrefixOf (c :: cs) then new ++ (c :: cs).drop old.length
    else c :: replaceFirstChars old new cs

/-- Go's `strings.Replace(s, old, new, 1)`. -/
def replaceFirst (s old new : String) : String :=
  ⟨replaceFirstChars old.data new.data s.data⟩

/-- Go's `strings.ToLower` on ASCII letters. (Go also lowers the letters outside
ASCII; no character other than `Y` and `N` has `y` or `n` as its lower case, so
the comparisons of `checkAndSet` with `"y"` and `"n"` come out the same.) -/
def toLower (s : String) : String := ⟨s.data.map Char.toLower⟩

/-! ## `Result` and `runScanner` (lines 28-32, 210-227) -/

/-- The struct `Result` (lines 29-32). -/
structure Result where
  URL : String
  Status : Int
  deriving DecidableEq

/-- Go's `http.StatusOK`. -/
def StatusOK : Int := 200

/-- Go's `http.StatusNotFound`. -/
def StatusNotFound : Int := 404

/-- The loop of `runScanner` from its `n`-th iteration on. `get n url` is the
outcome of the `client.Get(url)` of iteration `n`: `none` when `err != nil`,
`some code` when a response with `resp.StatusCode = code` came back. The value
is the sequence of `Result`s sent on `results`, in the order sent. -/
def runScannerFrom (get : Nat → String → Option Int) (target : String) :
    Nat → List String → List Result
  | _, [] => []
  | n, path :: rest =>
    let url := target ++ path
    (match get n url with
      | none => { URL := url, Status := StatusNotFound }
      | some code => { URL := url, Status := code })
      :: runScannerFrom get target (n + 1) rest

/-- The function `runScanner` (lines 210-227). -/
def runScanner (get : Nat → String → Option Int) (target : String)
    (dictionary : List String) : List Result :=
  runScannerFrom get target 0 dictionary

/-! ## The scan phase of `main` (lines 115-160) -/

/-- Lines 118-143: the dictionary is partitioned and worker `workerID` runs
`runScanner(*target, chunks[workerID], results)`. `get workerID` gives the
outcomes of the requests of that worker (`chunks` has `*workers` elements, so
the index `workerID` is in range). The value lists, per worker, what the worker
sends on `results`; `none` when the program stops in the partitioning. -/
def scan (memory : Nat) (get : Nat → Nat → String → Option Int) (target : String)
    (dictionary : List String) (workers : Int) : Option (List (List Result)) :=
  match partition memory dictionary workers with
  | none => none
  | some chunks =>
    some ((List.range workers.toNat).map
      (fun workerID => runScanner (get workerID) target (chunks.getD workerID [])))

/-- The sequences the collector loop `for result := range results` can receive
when the workers send the sequences `queues` on the unbuffered channel
`results`: each receive takes the next value of some worker, and the loop ends
when the channel is closed, after every worker has sent everything. -/
inductive Interleaving {α : Type} : List (List α) → List α → Prop
  | closed (queues : List (List α)) (h : ∀ q ∈ queues, q = []) : Interleaving queues []
  | receive (queues : List (List α)) (i : Nat) (x : α) (q : List α) (received : List α)
      (h : queues.get? i = some (x :: q))
      (rest : Interleaving (queues.set i q) received) : Interleaving queues (x :: received)

/-! ## `readDictionary` (lines 175-197) -/

/-- Go's `bufio.MaxScanTokenSize`, the size limit of the buffer of a
`bufio.Scanner`. -/
def MaxScanTokenSize : Nat := 64 * 1024

/-- The number of bytes of the UTF-8 encoding of `s`. -/
def byteLen (s : List Char) : Nat := (s.map Char.utf8Size).sum

/-- The helper `dropCR` of `bufio.ScanLines`: a final `\r` is dropped. -/
def dropCR (data : List Char) : List Char :=
  if data.getLast? = some '\r' then data.dropLast else data

/-- The tokens returned by the calls of `scanner.Scan()` with the default split
function `bufio.ScanLines`, where `cur` is the part of the current line already
read and the second argument is the unread rest of the file. A line is ended by
`\n`; one `\r` before it is dropped; a last line without `\n` is returned when
it is not empty. `none` is the error `bufio.ErrTooLong`: the bytes of the
current line fill the whole buffer and no `\n` is among them. -/
def scanLines (cur : List Char) : List Char → Option (List String)
  | [] =>
    if cur = [] then some []
    else if MaxScanTokenSize ≤ byteLen cur then none
    else some [⟨dropCR cur⟩]
  | c :: cs =>
    if c = '\n' then
      if MaxScanTokenSize ≤ byteLen cur then none
      else
        match scanLines [] cs with
        | none => none
        | some lines => some (⟨dropCR cur⟩ :: lines)
    else scanLines (cur ++ [c]) cs

/-- The function `readDictionary` (lines 175-197). `file` is the content of
the file at `path`, `none` when `os.Open` fails. The value is `none` when
`readDictionary` returns a non-nil error. -/
def readDictionary (file : Option String) : Option (List String) :=
  match file with
  | none => none
  | some content => scanLines [] content.data

/-- The text of a file made of the lines `rows`, each followed by its line
terminator (`\r\n` when the flag of the row is set, `\n` otherwise), and of a
last line `last` without `\n`, followed by a `\r` when `lastCR` is set (no last
line when `last` is empty and `lastCR` is not set). Used only to state facts
about `readDictionary`. -/
def fileOf (rows : List (String × Bool)) (last : String) (lastCR : Bool) : String :=
  ⟨(rows.map (fun row => row.1.data ++ (if row.2 then ['\r', '\n'] else ['\n']))).flatten
    ++ (last.data ++ (if lastCR then ['\r'] else []))⟩

/-! ## `checkAndSet` (lines 246-329) -/

/-- What `checkAndSet` reads of a `*http.Response`: `resp.StatusCode` and
`resp.Header.Get("Location")`. -/
structure Response where
  StatusCode : Int
  Location : String
  deriving DecidableEq

/-- What `checkAndSet` reads of a `*url.URL`. -/
structure URL where
  Scheme : String
  Host : String
  deriving DecidableEq

/-- The world outside the program during negotiation. `head n url` is the
outcome of the `n`-th `client.Head` of the run, issued for `url`: `none` when
`err != nil`. `parse s` is Go's `url.Parse(s)`: `none` when `err != nil`. -/
structure Env where
  head : Nat → String → Option Response
  parse : String → Option URL

/-- What `checkAndSet` does that can be observed: the requests it issues and
the lines it prints. -/
inductive Event
  | checking (protocol : String)
  | head (url : String)
  | failed
  | noConnection
  | ok
  | redirection (original location : String)
  | prompt
  | invalidChoice
  | aborted
  deriving DecidableEq

/-- How a call of `checkAndSet` ends: it returns (`err = true` for a non-nil
error), the process ends in `os.Exit(0)`, or the prompt loop is never left
(standard input is at its end, every further answer is the empty line). -/
inductive Ending
  | returned (err : Bool)
  | exited
  | promptForever
  deriving DecidableEq

/-- A call of `checkAndSet`: how it ends, the value of `*target` and the number
of `client.Head` requests issued at that point, and the events in order (for
`Ending.promptForever`, the events up to the end of standard input). -/
structure Negotiation where
  ending : Ending
  target : String
  probes : Nat
  trace : List Event
  deriving DecidableEq

/-- The events `pre` happen, then `r`. -/
def Negotiation.after (pre : List Event) (r : Negotiation) : Negotiation :=
  { r with trace := pre ++ r.trace }

/-- Lines 250-254: the protocol inferred from `*target`. -/
def protocolOf (target : String) : String :=
  if startsWith target "https://" then "HTTPS" else "HTTP"

/-- Lines 272-278: the protocol is inverted in `*target`; the value is the new
`*target` and the new `protocol`. -/
def flipProtocol (target protocol : String) : String × String :=
  if protocol = "HTTPS" then (replaceFirst target "https://" "http://", "HTTP")
  else (replaceFirst target "http://" "https://", "HTTPS")

/-- Lines 306-315: the new `*target` computed from the `Location` header. -/
def redirectTarget (env : Env) (redirectURL : String) : String :=
  match env.parse redirectURL with
  | some parsedURL => parsedURL.Scheme ++ "://" ++ parsedURL.Host
  | none => redirectURL

/-- Lines 290-328, reached with a response `resp`: a status outside 300..399
returns nil; a status in 300..399 enters the prompt loop `loop`. -/
def afterResponse (loop : Response → String → Nat → Negotiation) (resp : Response)
    (target : String) (n : Nat) : Negotiation :=
  if 300 ≤ resp.StatusCode ∧ resp.StatusCode < 400 then
    (loop resp target n).after [Event.ok, Event.redirection target resp.Location]
  else
    { ending := Ending.returned false, target := target, probes := n, trace := [Event.ok] }

/-- The body of `checkAndSet` (lines 246-328) with the prompt loop of lines
300-325 as the argument `loop`; `n` is the number of `client.Head` requests
issued before the call. -/
def checkAndSetBody (env : Env) (loop : Response → String → Nat → Negotiation)
    (target : String) (n : Nat) : Negotiation :=
  let protocol := protocolOf target
  match env.head n target with
  | some resp =>
    (afterResponse loop resp target (n + 1)).after [Event.checking protocol, Event.head target]
  | none =>
    let flipped := flipProtocol target protocol
    match env.head (n + 1) flipped.1 with
    | none =>
      { ending := Ending.returned true, target := flipped.1, probes := n + 2,
        trace := [Event.checking protocol, Event.head target, Event.failed,
          Event.checking flipped.2, Event.head flipped.1, Event.failed, Event.noConnection] }
    | some resp =>
      (afterResponse loop resp flipped.1 (n + 2)).after
        [Event.checking protocol, Event.head target, Event.failed,
          Event.checking flipped.2, Event.head flipped.1]

/-- The prompt loop of lines 300-325. The first argument lists the lines that
the calls of `scanner.Scan()` read from standard input, one per prompt; after
them standard input is at its end. On "y" the target is rewritten and
`checkAndSet(target)` is called, its result is dropped, and the loop is left
by `break`, after which line 328 returns nil. -/
def promptLoop (env : Env) :
    List String → Response → String → Nat → Negotiation
  | [], _, target, n =>
    { ending := Ending.promptForever, target := target, probes := n, trace := [] }
  | line :: rest, resp, target, n =>
    let answer := toLower line
    if answer = "y" then
      let inner := checkAndSetBody env (promptLoop env rest) (redirectTarget env resp.Location) n
      match inner.ending with
      | Ending.returned _ =>
        { inner with ending := Ending.returned false, trace := Event.prompt :: inner.trace }
      | _ => { inner with trace := Event.prompt :: inner.trace }
    else if answer = "n" then
      { ending := Ending.exited, target := target, probes := n,
        trace := [Event.prompt, Event.aborted] }
    else
      (promptLoop env rest resp target n).after [Event.prompt, Event.invalidChoice]

/-- The function `checkAndSet` (lines 246-329), called with `*target = target`
after `n` requests, `answers` being the lines still to come on standard
input. -/
def checkAndSet (env : Env) (answers : List String) (target : String) (n : Nat) :
    Negotiation :=
  checkAndSetBody env (promptLoop env answers) target n

/-! ## `main` (lines 41-163) -/

/-- The flags read by `main` that decide its control flow: `-d`, `-t` and `-w`.
(The flags `-q`, `-a` and `-l` only choose what is printed and logged for a
received `Result`.) -/
structure Flags where
  d : String
  t : String
  w : Int

/-- How `main` ends: by one of its early `return`s (lines 67, 74, 95, 100),
inside `checkAndSet` (exit by the user, or a prompt loop never left), by a
run-time panic or fatal error in the partitioning, or after the scan; `sent`
lists per worker what the worker sent on `results` and `target` is `*target`
during the scan. -/
inductive MainEnding
  | badTarget
  | missingFlag
  | dictionaryError
  | noConnection
  | exitedByUser
  | promptForever
  | panicked
  | scanned (target : String) (sent : List (List Result))
  deriving DecidableEq

/-- The function `main` (lines 41-163), `error.log` and `scan.log` taken to
open. `memory` is the number of bytes the machine can still allocate, `file`
the content of the dictionary file (`none` when it cannot be opened),
`answers` the lines on standard input, `env` the outcomes of the `HEAD`
requests and `get` the outcomes of the `GET` requests of each worker. -/
def main (env : Env) (memory : Nat) (file : Option String) (answers : List String)
    (get : Nat → Nat → String → Option Int) (flags : Flags) : MainEnding :=
  if !startsWith flags.t "http://" && !startsWith flags.t "https://" then MainEnding.badTarget
  else if flags.d = "" || flags.t = "" then MainEnding.missingFlag
  else
    match readDictionary file with
    | none => MainEnding.dictionaryError
    | some dictionary =>
      let negotiation := checkAndSet env answers flags.t 0
      match negotiation.ending with
      | Ending.returned true => MainEnding.noConnection
      | Ending.exited => MainEnding.exitedByUser
      | Ending.promptForever => MainEnding.promptForever
      | Ending.returned false =>
        match scan memory get negotiation.target dictionary flags.w with
        | none => MainEnding.panicked
        | some sent => MainEnding.scanned negotiation.target sent

/-! ## A model of `url.Parse` for concrete scenarios -/

/-- The function `getScheme` of Go's package `net/url`: the scheme before the
first `:` and the rest after it, an empty scheme when the text does not begin
with a scheme, and `none` (the error "missing protocol scheme") when it begins
with `:`. `seen` is the part already read. -/
def getSchemeFrom (rawURL : List Char) : List Char → List Char → Option (List Char × List Char)
  | _, [] => some ([], rawURL)
  | seen, c :: cs =>
    if c.isAlpha then getSchemeFrom rawURL (seen ++ [c]) cs
    else if c.isDigit || c = '+' || c = '-' || c = '.' then
      if seen = [] then some ([], rawURL) else getSchemeFrom rawURL (seen ++ [c]) cs
    else if c = ':' then
      if seen = [] then none else some (seen, cs)
    else some ([], rawURL)

/-- A model of Go's `url.Parse` (package `net/url`, not part of this
repository), following the library's `Parse`, `parse` and `getScheme`: the
fragment after `#` and the query after `?` are cut off, the scheme is split off
and lower-cased, and after `//` the authority up to the next `/` is the host.
The library's validation of control characters, percent-escapes, user
information, ports and host characters is left out, so the model stands for
the library on texts made of letters, digits and `. - / : # ?` whose
authority has no `:`. The theorems below hold for every `Env.parse`; this
model only serves to run concrete scenarios. -/
def urlParse (rawURL : String) : Option URL :=
  let u := rawURL.data.takeWhile (fun c => c != '#')
  if u = ['*'] then some { Scheme := "", Host := "" }
  else
    match getSchemeFrom u [] u with
    | none => none
    | some (scheme, afterScheme) =>
      let scheme := scheme.map Char.toLower
      let rest := afterScheme.takeWhile (fun c => c != '?')
      if !(['/'].isPrefixOf rest) && scheme ≠ [] then
        some { Scheme := ⟨scheme⟩, Host := "" }
      else if !(['/'].isPrefixOf rest) && (rest.takeWhile (fun c => c != '/')).contains ':' then
        none
      else if (scheme ≠ [] || !(['/', '/', '/'].isPrefixOf rest)) && ['/', '/'].isPrefixOf rest then
        some { Scheme := ⟨scheme⟩, Host := ⟨(rest.drop 2).takeWhile (fun c => c != '/')⟩ }
      else some { Scheme := ⟨scheme⟩, Host := "" }

/-- The world in which the `n`-th `HEAD` request of the run has the outcome
`responses[n]` (a transport error past the end of the list) and `url.Parse` is
`urlParse`. -/
def scriptedEnv (responses : List (Option Response)) : Env :=
  { head := fun n _ => (responses.get? n).join, parse := urlParse }

/-- A response with status 301 or 302 and the given `Location` header. -/
def redirectTo (code : Int) (location : String) : Response :=
  { StatusCode := code, Location := location }

/-- The scenario of the specification: `http://example.com` answers 301 with
`Location: https://example.com/`, and the next request is answered with 200. -/
def followedRedirectEnv : Env :=
  scriptedEnv [some (redirectTo 301 "https://example.com/"), some { StatusCode := 200, Location := "" }]

/-- The first request is answered 301 with `Location: https://b.example/`;
every later request fails to connect. -/
def deadRedirectEnv : Env :=
  scriptedEnv [some (redirectTo 301 "https://b.example/"), none, none]

/-- The first request is answered 302 with the relative `Location: /login`;
every later request fails. -/
def relativeRedirectEnv : Env :=
  scriptedEnv [some (redirectTo 302 "/login")]

/-! ## Facts about the partitioning loop -/

theorem wrap64_of_bounds {x : Int} (h0 : 0 ≤ x) (h1 : x < 2 ^ 63) : wrap64 x = x := by
  unfold wrap64
  omega

theorem goDiv_natCast {L W : Nat} (hW : 1 ≤ W) (hL : (L : Int) < 2 ^ 63) :
    goDiv (L : Int) (W : Int) = some ((L / W : Nat) : Int) := by
  have hW0 : (W : Int) ≠ 0 := by omega
  have hdiv : Int.tdiv (L : Int) (W : Int) = ((L / W : Nat) : Int) := by
    rw [Int.tdiv_eq_ediv (by omega) (by omega)]
    rfl
  have hle : L / W ≤ L := Nat.div_le_self L W
  unfold goDiv
  rw [if_neg hW0, hdiv]
  generalize L / W = c at *
  rw [wrap64_of_bounds (by omega) (by omega)]

theorem mul_chunkSize_le {L W i : Nat} (hi : i ≤ W) : i * (L / W) ≤ L :=
  calc i * (L / W) ≤ W * (L / W) := Nat.mul_le_mul_right _ hi
    _ ≤ L := Nat.mul_div_le L W

theorem chunkStart_natCast {L W i : Nat} (hi : i ≤ W) (hL : (L : Int) < 2 ^ 63) :
    chunkStart ((L / W : Nat) : Int) (i : Int) = ((i * (L / W) : Nat) : Int) := by
  have h := mul_chunkSize_le (L := L) hi
  unfold chunkStart
  rw [wrap64_of_bounds]
  · push_cast; rfl
  · positivity
  · have : ((i : Int) * ((L / W : Nat) : Int)) = ((i * (L / W) : Nat) : Int) := by push_cast; rfl
    rw [this]; omega

theorem chunkEnd_natCast {L W i : Nat} (hi : i < W) (hW : (W : Int) < 2 ^ 63)
    (hL : (L : Int) < 2 ^ 63) :
    chunkEnd (L : Int) (W : Int) ((L / W : Nat) : Int) (i : Int) =
      if i + 1 = W then (L : Int) else (((i + 1) * (L / W) : Nat) : Int) := by
  have hw1 : wrap64 ((W : Int) - 1) = (W : Int) - 1 := wrap64_of_bounds (by omega) (by omega)
  have hi1 : wrap64 ((i : Int) + 1) = ((i + 1 : Nat) : Int) := by
    rw [wrap64_of_bounds (by omega) (by omega)]; push_cast; rfl
  unfold chunkEnd
  rw [hw1, hi1]
  by_cases hlast : i + 1 = W
  · rw [if_pos (by omega), if_pos hlast]
  · rw [if_neg (by omega), if_neg hlast]
    exact chunkStart_natCast (i := i + 1) (by omega) hL

theorem sliceExpr_natCast {α : Type} (s : List α) {lo hi : Nat} (h1 : lo ≤ hi)
    (h2 : hi ≤ s.length) :
    sliceExpr s (lo : Int) (hi : Int) = some ((s.drop lo).take (hi - lo)) := by
  unfold sliceExpr
  rw [if_pos (by omega)]
  simp

theorem sliceExpr_chunk (dictionary : List String) {W i : Nat} (hi : i < W)
    (hW : (W : Int) < 2 ^ 63) (hL : (dictionary.length : Int) < 2 ^ 63) :
    sliceExpr dictionary (chunkStart ((dictionary.length / W : Nat) : Int) (i : Int))
        (chunkEnd (dictionary.length : Int) (W : Int) ((dictionary.length / W : Nat) : Int)
          (i : Int))
      = some (chunkAt dictionary W i) := by
  rw [chunkStart_natCast (by omega) hL, chunkEnd_natCast hi hW hL]
  have hs := mul_chunkSize_le (L := dictionary.length) (W := W) (i := i) (by omega)
  unfold chunkAt
  by_cases hlast : i + 1 = W
  · rw [if_pos hlast, if_pos hlast, sliceExpr_natCast dictionary hs (le_refl _)]
  · rw [if_neg hlast, if_neg hlast]
    have he := mul_chunkSize_le (L := dictionary.length) (W := W) (i := i + 1) (by omega)
    have hle : i * (dictionary.length / W) ≤ (i + 1) * (dictionary.length / W) :=
      Nat.mul_le_mul_right _ (by omega)
    rw [sliceExpr_natCast dictionary hle he]
    congr 2
    rw [Nat.add_mul, Nat.one_mul, Nat.add_sub_cancel_left]

theorem fillChunks_eq (dictionary : List String) {W : Nat} (hW : (W : Int) < 2 ^ 63)
    (hL : (dictionary.length : Int) < 2 ^ 63) (is : List Nat) (his : ∀ i ∈ is, i < W) :
    fillChunks dictionary (W : Int) ((dictionary.length / W : Nat) : Int) is
      = some (is.map (chunkAt dictionary W)) := by
  induction is with
  | nil => rfl
  | cons i is ih =>
    have hi : i < W := his i (List.mem_cons_self _ _)
    have ih2 := ih (fun j hj => his j (List.mem_cons_of_mem _ hj))
    rw [fillChunks, sliceExpr_chunk dictionary hi hW hL, ih2]
    rfl

theorem workers_lt_of_alloc {W : Nat} (hA : sliceHeaderSize * W ≤ maxAlloc) :
    (W : Int) < 2 ^ 63 := by
  unfold sliceHeaderSize maxAlloc at hA
  omega

theorem makeChunks_natCast {memory W : Nat} (hA : sliceHeaderSize * W ≤ maxAlloc)
    (hM : sliceHeaderSize * W ≤ memory) : makeChunks memory (W : Int) = some W := by
  unfold makeChunks
  rw [if_neg (by omega), Int.toNat_natCast, if_neg (by omega), if_neg (by omega)]

theorem makeChunks_too_many {memory : Nat} {workers : Int}
    (h : (maxAlloc : Int) < sliceHeaderSize * workers ∨ (memory : Int) < sliceHeaderSize * workers) :
    makeChunks memory workers = none := by
  unfold makeChunks
  by_cases hneg : workers < 0
  · rw [if_pos hneg]
  · rw [if_neg hneg]
    have hcast : ((workers.toNat : Nat) : Int) = workers := Int.toNat_of_nonneg (by omega)
    by_cases hA : maxAlloc < sliceHeaderSize * workers.toNat
    · rw [if_pos hA]
    · rw [if_neg hA]
      have hM : memory < sliceHeaderSize * workers.toNat := by
        rcases h with h | h
        · exfalso
          apply hA
          have : ((maxAlloc : Nat) : Int) < ((sliceHeaderSize * workers.toNat : Nat) : Int) := by
            push_cast; rw [hcast]; exact h
          exact_mod_cast this
        · have : ((memory : Nat) : Int) < ((sliceHeaderSize * workers.toNat : Nat) : Int) := by
            push_cast; rw [hcast]; exact h
          exact_mod_cast this
      rw [if_pos hM]

theorem partition_eq (memory : Nat) (dictionary : List String) {W : Nat} (hW1 : 1 ≤ W)
    (hA : sliceHeaderSize * W ≤ maxAlloc) (hM : sliceHeaderSize * W ≤ memory)
    (hL : (dictionary.length : Int) < 2 ^ 63) :
    partition memory dictionary (W : Int)
      = some ((List.range W).map (chunkAt dictionary W)) := by
  unfold partition
  rw [goDiv_natCast hW1 hL]
  simp only []
  rw [makeChunks_natCast hA hM]
  exact fillChunks_eq dictionary (workers_lt_of_alloc hA) hL _ (fun i hi => List.mem_range.mp hi)

theorem flatten_map_chunks (dictionary : List String) (c k : Nat) :
    ((List.range k).map (fun i => (dictionary.drop (i * c)).take c)).flatten
      = dictionary.take (k * c) := by
  induction k with
  | zero => simp
  | succ k ih =>
    rw [List.range_succ, List.map_append, List.flatten_append, ih, Nat.succ_mul, List.take_add]
    simp

theorem map_chunkAt_init (dictionary : List String) (k : Nat) :
    (List.range k).map (chunkAt dictionary (k + 1))
      = (List.range k).map
          (fun i => (dictionary.drop (i * (dictionary.length / (k + 1)))).take
            (dictionary.length / (k + 1))) := by
  apply List.map_congr_left
  intro i hi
  have hik : i < k := List.mem_range.mp hi
  unfold chunkAt
  rw [if_neg (by omega)]

theorem chunkAt_last (dictionary : List String) (k : Nat) :
    chunkAt dictionary (k + 1) k = dictionary.drop (k * (dictionary.length / (k + 1))) := by
  unfold chunkAt
  rw [if_pos rfl]
  apply List.take_of_length_le
  rw [List.length_drop]

theorem flatten_chunkAt (dictionary : List String) {W : Nat} (hW : 1 ≤ W) :
    ((List.range W).map (chunkAt dictionary W)).flatten = dictionary := by
  obtain ⟨k, rfl⟩ : ∃ k, W = k + 1 := ⟨W - 1, by omega⟩
  rw [List.range_succ, List.map_append, List.flatten_append, map_chunkAt_init,
    flatten_map_chunks, List.map_singleton, List.flatten_singleton, chunkAt_last,
    List.take_append_drop]

theorem length_chunkAt (dictionary : List String) {W i : Nat} (hi : i < W) :
    (chunkAt dictionary W i).length =
      if i + 1 = W then dictionary.length - i * (dictionary.length / W)
      else dictionary.length / W := by
  have hs := mul_chunkSize_le (L := dictionary.length) (W := W) (i := i + 1) (by omega)
  rw [Nat.add_mul, Nat.one_mul] at hs
  unfold chunkAt
  rw [List.length_take, List.length_drop]
  split <;> omega

theorem getElem?_map_chunkAt (dictionary : List String) {W i : Nat} (hi : i < W) :
    ((List.range W).map (chunkAt dictionary W)).get? i = some (chunkAt dictionary W i) := by
  rw [List.get?_eq_getElem?, List.getElem?_map, List.getElem?_range hi]
  rfl

theorem toNat_cast_eq {workers : Int} (hW : 1 ≤ workers) : ((workers.toNat : Nat) : Int) = workers :=
  Int.toNat_of_nonneg (by omega)

/-- For a worker count whose `chunks` slice exceeds the run-time limit or the
memory of the machine, the program stops at line 120 and builds no chunk. -/
theorem partition_too_many_workers (memory : Nat) (dictionary : List String) (workers : Int)
    (h : (maxAlloc : Int) < sliceHeaderSize * workers ∨ (memory : Int) < sliceHeaderSize * workers) :
    partition memory dictionary workers = none := by
  unfold partition
  cases goDiv dictionary.length workers with
  | none => rfl
  | some chunkSize =>
    simp only []
    rw [makeChunks_too_many h]

/-- C1 as stated fails for a large worker count: with `W = 2^44` the slice
`chunks` would take `24 * 2^44` bytes, more than the run-time limit of `2^48`
bytes, so `make` panics at line 120 and the loop produces no chunk, also on a
machine that could serve every allocation up to that limit. -/
theorem partition_stops_for_huge_worker_count :
    (1 : Int) ≤ 2 ^ 44 ∧
    makeChunks maxAlloc (2 ^ 44) = none ∧
    partition maxAlloc ["a", "b", "c"] (2 ^ 44) = none ∧
    ¬ ∃ chunks, partition maxAlloc ["a", "b", "c"] (2 ^ 44) = some chunks ∧
      chunks.flatten = ["a", "b", "c"] := by
  have h : partition maxAlloc ["a", "b", "c"] (2 ^ 44) = none := by decide
  refine ⟨by decide, by decide, h, ?_⟩
  rintro ⟨chunks, hc, _⟩
  rw [h] at hc
  cases hc

/-- C1, amended: for every worker count `W >= 1` for which the allocation
`make([][]string, W)` of line 120 succeeds (`24 * W` bytes are within the
run-time limit `maxAlloc` and within the memory of the machine) and every
dictionary, the partitioning loop of `main` does not panic and produces exactly
`W` chunks; chunk `i` is the slice `dictionary[start_i:end_i]` of the loop, the
first chunk starts at 0, the last one ends at `len(dictionary)`, each chunk
ends where the next one starts (so the chunks are contiguous and no two
overlap), and concatenating the chunks in worker order gives back the
dictionary. -/
theorem partition_covers (memory : Nat) (dictionary : List String) (workers : Int)
    (hW : 1 ≤ workers)
    (hAlloc : sliceHeaderSize * workers.toNat ≤ maxAlloc)
    (hMem : sliceHeaderSize * workers.toNat ≤ memory)
    (hL : (dictionary.length : Int) < 2 ^ 63) :
    ∃ chunkSize chunks,
      goDiv dictionary.length workers = some chunkSize ∧
      partition memory dictionary workers = some chunks ∧
      chunks.length = workers.toNat ∧
      chunks.flatten = dictionary ∧
      (∀ i : Nat, i < workers.toNat →
        chunks.get? i = sliceExpr dictionary (chunkStart chunkSize i)
          (chunkEnd dictionary.length workers chunkSize i) ∧
        chunks.get? i = some ((dictionary.drop (chunkStart chunkSize i).toNat).take
          ((chunkEnd dictionary.length workers chunkSize i).toNat
            - (chunkStart chunkSize i).toNat)) ∧
        0 ≤ chunkStart chunkSize i ∧
        chunkStart chunkSize i ≤ chunkEnd dictionary.length workers chunkSize i) ∧
      chunkStart chunkSize 0 = 0 ∧
      chunkEnd dictionary.length workers chunkSize (workers - 1) = dictionary.length ∧
      (∀ i : Nat, i + 1 < workers.toNat →
        chunkEnd dictionary.length workers chunkSize i = chunkStart chunkSize ((i + 1 : Nat) : Int)) ∧
      (∀ i j : Nat, i < j → j < workers.toNat →
        chunkEnd dictionary.length workers chunkSize i ≤ chunkStart chunkSize j) := by
  obtain ⟨W, rfl⟩ : ∃ W : Nat, workers = (W : Int) := ⟨workers.toNat, (toNat_cast_eq hW).symm⟩
  have hW1 : 1 ≤ W := by omega
  rw [Int.toNat_natCast] at hAlloc hMem
  have hW64 : (W : Int) < 2 ^ 63 := workers_lt_of_alloc hAlloc
  rw [Int.toNat_natCast]
  refine ⟨((dictionary.length / W : Nat) : Int), (List.range W).map (chunkAt dictionary W),
    goDiv_natCast hW1 hL, partition_eq memory dictionary hW1 hAlloc hMem hL, by simp,
    flatten_chunkAt dictionary hW1, ?_, ?_, ?_, ?_, ?_⟩
  · intro i hi
    have hs := mul_chunkSize_le (L := dictionary.length) (W := W) (i := i) (by omega)
    have he := mul_chunkSize_le (L := dictionary.length) (W := W) (i := i + 1) (by omega)
    have hle : i * (dictionary.length / W) ≤ (i + 1) * (dictionary.length / W) :=
      Nat.mul_le_mul_right _ (by omega)
    have hslice := sliceExpr_chunk dictionary hi hW64 hL
    refine ⟨by rw [getElem?_map_chunkAt dictionary hi, hslice], ?_, ?_, ?_⟩
    · rw [getElem?_map_chunkAt dictionary hi, ← hslice]
      rw [chunkStart_natCast (by omega) hL, chunkEnd_natCast hi hW64 hL]
      by_cases hlast : i + 1 = W
      · rw [if_pos hlast, sliceExpr_natCast dictionary hs (le_refl _)]
        simp only [Int.toNat_natCast]
      · rw [if_neg hlast, sliceExpr_natCast dictionary hle he]
        simp only [Int.toNat_natCast]
    · rw [chunkStart_natCast (by omega) hL]; omega
    · rw [chunkStart_natCast (by omega) hL, chunkEnd_natCast hi hW64 hL]
      by_cases hlast : i + 1 = W
      · rw [if_pos hlast]; omega
      · rw [if_neg hlast]; omega
  · have h := chunkStart_natCast (L := dictionary.length) (W := W) (i := 0) (by omega) hL
    simpa using h
  · have h := chunkEnd_natCast (L := dictionary.length) (W := W) (i := W - 1) (by omega) hW64 hL
    rw [if_pos (by omega)] at h
    have hc : ((W - 1 : Nat) : Int) = (W : Int) - 1 := by omega
    rw [hc] at h
    exact h
  · intro i hi
    rw [chunkEnd_natCast (by omega) hW64 hL, if_neg (by omega),
      chunkStart_natCast (i := i + 1) (by omega) hL]
  · intro i j hij hj
    rw [chunkEnd_natCast (by omega) hW64 hL, if_neg (by omega),
      chunkStart_natCast (i := j) (by omega) hL]
    have : (i + 1) * (dictionary.length / W) ≤ j * (dictionary.length / W) :=
      Nat.mul_le_mul_right _ (by omega)
    omega

/-- A run of amended C1: five candidates and two workers on a machine with
1 GiB to allocate. -/
theorem partition_covers_witness :
    ∃ chunkSize chunks,
      goDiv (["a", "b", "c", "d", "e"] : List String).length 2 = some chunkSize ∧
      partition (2 ^ 30) ["a", "b", "c", "d", "e"] 2 = some chunks ∧
      chunks.length = (2 : Int).toNat ∧
      chunks.flatten = ["a", "b", "c", "d", "e"] :=
  have h := partition_covers (2 ^ 30) ["a", "b", "c", "d", "e"] 2
    (by decide) (by decide) (by decide) (by decide)
  match h with
  | ⟨chunkSize, chunks, h1, h2, h3, h4, _⟩ => ⟨chunkSize, chunks, h1, h2, h3, h4⟩

theorem makeChunks_eq_some {memory : Nat} {workers : Int} {len : Nat}
    (h : makeChunks memory workers = some len) :
    0 ≤ workers ∧ sliceHeaderSize * workers.toNat ≤ maxAlloc ∧
      sliceHeaderSize * workers.toNat ≤ memory ∧ len = workers.toNat := by
  unfold makeChunks at h
  by_cases h1 : workers < 0
  · rw [if_pos h1] at h; cases h
  · rw [if_neg h1] at h
    by_cases h2 : maxAlloc < sliceHeaderSize * workers.toNat
    · rw [if_pos h2] at h; cases h
    · rw [if_neg h2] at h
      by_cases h3 : memory < sliceHeaderSize * workers.toNat
      · rw [if_pos h3] at h; cases h
      · rw [if_neg h3] at h
        cases h
        exact ⟨by omega, by omega, by omega, rfl⟩

/-- C10: for every worker count `W >= 1` and every dictionary length `L >= 0`
(both within the range of a Go `int`), the division `len(dictionary) / *workers`
does not fail and yields `floor(L / W)`; every slice expression
`dictionary[start:end]` of the loop has `0 <= start <= end <= L` and does not
fail, and its value has `floor(L / W)` elements, or `L - (W - 1) * floor(L / W)`
elements for the last index; and whenever the allocation of line 120 succeeds,
so that the loop is run, the loop completes and the chunk it stores at index
`i` is the value of that slice expression. -/
theorem partition_slices_in_range (memory : Nat) (dictionary : List String) (workers : Int)
    (hW : 1 ≤ workers) (hW64 : workers < 2 ^ 63) (hL : (dictionary.length : Int) < 2 ^ 63) :
    goDiv dictionary.length workers = some ((dictionary.length / workers.toNat : Nat) : Int) ∧
    (∀ i : Nat, i < workers.toNat →
      0 ≤ chunkStart ((dictionary.length / workers.toNat : Nat) : Int) i ∧
      chunkStart ((dictionary.length / workers.toNat : Nat) : Int) i
        ≤ chunkEnd dictionary.length workers ((dictionary.length / workers.toNat : Nat) : Int) i ∧
      chunkEnd dictionary.length workers ((dictionary.length / workers.toNat : Nat) : Int) i
        ≤ (dictionary.length : Int) ∧
      ∃ chunk,
        sliceExpr dictionary (chunkStart ((dictionary.length / workers.toNat : Nat) : Int) i)
          (chunkEnd dictionary.length workers ((dictionary.length / workers.toNat : Nat) : Int) i)
          = some chunk ∧
        chunk.length =
          if i + 1 = workers.toNat then
            dictionary.length - (workers.toNat - 1) * (dictionary.length / workers.toNat)
          else dictionary.length / workers.toNat) ∧
    (∀ len, makeChunks memory workers = some len →
      ∃ chunks, partition memory dictionary workers = some chunks ∧
        chunks.length = workers.toNat ∧
        ∀ i : Nat, i < workers.toNat →
          ∃ chunk, chunks.get? i = some chunk ∧
            sliceExpr dictionary (chunkStart ((dictionary.length / workers.toNat : Nat) : Int) i)
              (chunkEnd dictionary.length workers
                ((dictionary.length / workers.toNat : Nat) : Int) i) = some chunk ∧
            chunk.length =
              if i + 1 = workers.toNat then
                dictionary.length - (workers.toNat - 1) * (dictionary.length / workers.toNat)
              else dictionary.length / workers.toNat) := by
  obtain ⟨W, rfl⟩ : ∃ W : Nat, workers = (W : Int) := ⟨workers.toNat, (toNat_cast_eq hW).symm⟩
  have hW1 : 1 ≤ W := by omega
  rw [Int.toNat_natCast]
  have hlen : ∀ i : Nat, i < W → (chunkAt dictionary W i).length =
      if i + 1 = W then dictionary.length - (W - 1) * (dictionary.length / W)
      else dictionary.length / W := by
    intro i hi
    rw [length_chunkAt dictionary hi]
    by_cases hlast : i + 1 = W
    · rw [if_pos hlast, if_pos hlast]
      have : i = W - 1 := by omega
      rw [this]
    · rw [if_neg hlast, if_neg hlast]
  refine ⟨goDiv_natCast hW1 hL, ?_, ?_⟩
  · intro i hi
    have hs := mul_chunkSize_le (L := dictionary.length) (W := W) (i := i) (by omega)
    have he := mul_chunkSize_le (L := dictionary.length) (W := W) (i := i + 1) (by omega)
    have hle : i * (dictionary.length / W) ≤ (i + 1) * (dictionary.length / W) :=
      Nat.mul_le_mul_right _ (by omega)
    refine ⟨?_, ?_, ?_, chunkAt dictionary W i, sliceExpr_chunk dictionary hi hW64 hL, hlen i hi⟩
    · rw [chunkStart_natCast (by omega) hL]; omega
    · rw [chunkStart_natCast (by omega) hL, chunkEnd_natCast hi hW64 hL]
      by_cases hlast : i + 1 = W
      · rw [if_pos hlast]; omega
      · rw [if_neg hlast]; omega
    · rw [chunkEnd_natCast hi hW64 hL]
      by_cases hlast : i + 1 = W
      · rw [if_pos hlast]
      · rw [if_neg hlast]; omega
  · intro len hmake
    obtain ⟨_, hA, hM, _⟩ := makeChunks_eq_some hmake
    rw [Int.toNat_natCast] at hA hM
    refine ⟨_, partition_eq memory dictionary hW1 hA hM hL, by simp, ?_⟩
    intro i hi
    exact ⟨chunkAt dictionary W i, getElem?_map_chunkAt dictionary hi,
      sliceExpr_chunk dictionary hi hW64 hL, hlen i hi⟩

/-- A run of C10: five candidates and seven workers on a machine with 1 GiB to
allocate. -/
theorem partition_slices_in_range_witness :
    goDiv (["a", "b", "c", "d", "e"] : List String).length 7
      = some (((["a", "b", "c", "d", "e"] : List String).length / (7 : Int).toNat : Nat) : Int) ∧
    ∃ chunks, partition (2 ^ 30) ["a", "b", "c", "d", "e"] 7 = some chunks ∧
      chunks.length = (7 : Int).toNat :=
  have h := partition_slices_in_range (2 ^ 30) ["a", "b", "c", "d", "e"] 7
    (by decide) (by decide) (by decide)
  ⟨h.1,
    match h.2.2 7 (by decide) with
    | ⟨chunks, h1, h2, _⟩ => ⟨chunks, h1, h2⟩⟩

theorem map_chunkAt_small (dictionary : List String) (k : Nat) (hL : dictionary.length < k + 1) :
    (List.range k).map (chunkAt dictionary (k + 1)) = List.replicate k [] := by
  rw [map_chunkAt_init, Nat.div_eq_of_lt hL]
  simp only [List.take_zero]
  exact List.eq_replicate_iff.mpr ⟨by simp, fun c hc => by
    obtain ⟨_, _, rfl⟩ := List.mem_map.mp hc
    rfl⟩

/-- C4 as stated fails in two ways. For the empty dictionary, `L = 0 < 1 = W`,
the loop builds the single chunk `[]`, so no chunk is non-empty. For a worker
count of `2^44` and a dictionary of one candidate, `make` panics at line 120
and no chunk is built at all. -/
theorem partition_fewer_words_than_workers_fails :
    (((([] : List String).length : Int) < 1) ∧
      partition maxAlloc [] 1 = some [[]] ∧
      ¬ ∃ chunks, partition maxAlloc [] 1 = some chunks ∧ ∃ chunk ∈ chunks, chunk ≠ []) ∧
    ((((["a"] : List String).length : Int) < 2 ^ 44) ∧
      partition maxAlloc ["a"] (2 ^ 44) = none ∧
      ¬ ∃ chunks, partition maxAlloc ["a"] (2 ^ 44) = some chunks ∧
        ∃ chunk ∈ chunks, chunk ≠ []) := by
  have h1 : partition maxAlloc [] 1 = some [[]] := by decide
  have h2 : partition maxAlloc ["a"] (2 ^ 44) = none := by decide
  refine ⟨⟨by decide, h1, ?_⟩, ⟨by decide, h2, ?_⟩⟩
  · rintro ⟨chunks, hc, chunk, hmem, hne⟩
    rw [h1] at hc
    cases hc
    simp at hmem
    exact hne hmem
  · rintro ⟨chunks, hc, _⟩
    rw [h2] at hc
    cases hc

/-- C4, amended: for every worker count `W` for which the allocation
`make([][]string, W)` of line 120 succeeds (`24 * W` bytes are within the
run-time limit `maxAlloc` and within the memory of the machine) and every
dictionary of length `L < W`, the loop builds `W - 1` empty chunks followed by
a last chunk equal to the whole dictionary; so exactly one chunk, the last, is
non-empty when `L >= 1`, and none is when `L = 0`. -/
theorem partition_more_workers_than_words (memory : Nat) (dictionary : List String)
    (workers : Int) (hLW : (dictionary.length : Int) < workers)
    (hAlloc : sliceHeaderSize * workers.toNat ≤ maxAlloc)
    (hMem : sliceHeaderSize * workers.toNat ≤ memory) :
    partition memory dictionary workers
      = some (List.replicate (workers.toNat - 1) [] ++ [dictionary]) ∧
    ((List.replicate (workers.toNat - 1) [] ++ [dictionary]).filter
        (fun chunk : List String => !chunk.isEmpty)).length
      = if dictionary = [] then 0 else 1 := by
  have hW : 1 ≤ workers := by omega
  obtain ⟨W, rfl⟩ : ∃ W : Nat, workers = (W : Int) := ⟨workers.toNat, (toNat_cast_eq hW).symm⟩
  rw [Int.toNat_natCast] at hAlloc hMem
  have hW64 : (W : Int) < 2 ^ 63 := workers_lt_of_alloc hAlloc
  obtain ⟨k, rfl⟩ : ∃ k, W = k + 1 := ⟨W - 1, by omega⟩
  have hLk : dictionary.length < k + 1 := by omega
  rw [Int.toNat_natCast]
  constructor
  · rw [partition_eq memory dictionary (by omega) hAlloc hMem (by omega), List.range_succ,
      List.map_append, map_chunkAt_small dictionary k hLk, List.map_singleton, chunkAt_last,
      Nat.div_eq_of_lt hLk]
    simp
  · rw [List.filter_append]
    have h0 : (List.replicate (k + 1 - 1) ([] : List String)).filter
        (fun chunk : List String => !chunk.isEmpty) = [] := by
      apply List.filter_eq_nil_iff.mpr
      intro c hc
      rw [List.eq_of_mem_replicate hc]
      simp
    rw [h0]
    cases dictionary <;> simp

/-- A run of amended C4: two candidates and four workers on a machine with
1 GiB to allocate. -/
theorem partition_more_workers_than_words_witness :
    partition (2 ^ 30) ["a", "b"] 4 = some [[], [], [], ["a", "b"]] :=
  (partition_more_workers_than_words (2 ^ 30) ["a", "b"] 4
    (by decide) (by decide) (by decide)).1

/-! ## Facts about `runScanner` and the scan phase -/

theorem length_runScannerFrom (get : Nat → String → Option Int) (target : String)
    (dictionary : List String) (n : Nat) :
    (runScannerFrom get target n dictionary).length = dictionary.length := by
  induction dictionary generalizing n with
  | nil => rfl
  | cons path rest ih => simp only [runScannerFrom, List.length_cons, ih]

theorem get?_runScannerFrom (get : Nat → String → Option Int) (target : String)
    (dictionary : List String) (n i : Nat) (path : String)
    (h : dictionary.get? i = some path) :
    (runScannerFrom get target n dictionary).get? i
      = some (match get (n + i) (target ++ path) with
              | none => { URL := target ++ path, Status := StatusNotFound }
              | some code => { URL := target ++ path, Status := code }) := by
  induction dictionary generalizing n i with
  | nil => simp at h
  | cons first rest ih =>
    cases i with
    | zero =>
      simp only [List.get?_cons_zero, Option.some.injEq] at h
      subst h
      simp only [runScannerFrom, List.get?_cons_zero, Nat.add_zero]
    | succ j =>
      simp only [List.get?_cons_succ] at h
      simp only [runScannerFrom, List.get?_cons_succ]
      rw [ih (n + 1) j h, Nat.add_assoc, Nat.add_comm 1 j]

/-- C2: for every target, every chunk and every outcome of the `GET` requests,
`runScanner` sends exactly one `Result` per candidate of the chunk, in chunk
order; the `i`-th `Result` has `URL` equal to the target followed verbatim by
the `i`-th candidate, and `Status` equal to the status code `S` of the response
when the `i`-th request succeeds and to 404 (`http.StatusNotFound`) when it
fails. -/
theorem runScanner_results (get : Nat → String → Option Int) (target : String)
    (dictionary : List String) :
    (runScanner get target dictionary).length = dictionary.length ∧
    ∀ (i : Nat) (path : String), dictionary.get? i = some path →
      ∃ result, (runScanner get target dictionary).get? i = some result ∧
        result.URL = target ++ path ∧
        (∀ S, get i (target ++ path) = some S → result.Status = S) ∧
        (get i (target ++ path) = none → result.Status = 404) := by
  refine ⟨length_runScannerFrom get target dictionary 0, ?_⟩
  intro i path h
  refine ⟨_, get?_runScannerFrom get target dictionary 0 i path h, ?_⟩
  rw [Nat.zero_add]
  cases hget : get i (target ++ path) with
  | none => exact ⟨rfl, fun S hS => (by cases hS), fun _ => rfl⟩
  | some code => exact ⟨rfl, fun S hS => (by cases hS; rfl), fun hn => (by cases hn)⟩

/-- A run of C2: the first request gets status 200, the second one fails. -/
theorem runScanner_results_witness :
    runScanner (fun n _ => if n = 0 then some 200 else none) "http://a.example"
        ["/admin", "/img"]
      = [{ URL := "http://a.example/admin", Status := 200 },
         { URL := "http://a.example/img", Status := 404 }] ∧
    ∃ result, (runScanner (fun n _ => if n = 0 then some 200 else none) "http://a.example"
        ["/admin", "/img"]).get? 1 = some result ∧ result.URL = "http://a.example" ++ "/img" :=
  ⟨by decide,
    match (runScanner_results (fun n _ => if n = 0 then some 200 else none) "http://a.example"
      ["/admin", "/img"]).2 1 "/img" rfl with
    | ⟨result, h1, h2, _⟩ => ⟨result, h1, h2⟩⟩

theorem Interleaving.cons_nil {α : Type} {queues : List (List α)} {received : List α}
    (h : Interleaving queues received) : Interleaving ([] :: queues) received := by
  induction h with
  | closed queues hq =>
    exact Interleaving.closed _ (fun q hm => by
      rcases List.mem_cons.mp hm with rfl | hm
      · rfl
      · exact hq q hm)
  | receive queues i x q received hget _ ih =>
    exact Interleaving.receive ([] :: queues) (i + 1) x q received
      (by simpa using hget) (by simpa using ih)

theorem Interleaving.flatten {α : Type} (queues : List (List α)) :
    Interleaving queues queues.flatten := by
  induction queues with
  | nil => exact Interleaving.closed [] (fun q hm => by cases hm)
  | cons first rest ih =>
    induction first with
    | nil => simpa using ih.cons_nil
    | cons x q ihq =>
      exact Interleaving.receive ((x :: q) :: rest) 0 x q ((q :: rest).flatten) rfl
        (by simpa using ihq)

theorem after_after (pre more : List Event) (r : Negotiation) :
    (r.after more).after pre = r.after (pre ++ more) := by
  simp [Negotiation.after]

theorem promptLoop_invalid (env : Env) (line : String) (rest : List String) (resp : Response)
    (target : String) (n : Nat) (hy : toLower line ≠ "y") (hn : toLower line ≠ "n") :
    promptLoop env (line :: rest) resp target n
      = (promptLoop env rest resp target n).after [Event.prompt, Event.invalidChoice] := by
  simp only [promptLoop, if_neg hy, if_neg hn]

/-- C9: in the prompt loop, answers whose lower-cased text is neither "y" nor
"n" change nothing: after any number of them the loop goes on exactly as it
would have without them (same response, same target, same number of requests
issued), having only printed the prompt and the invalid-choice message once per
such answer; no request is issued and no exit occurs. If no other answer ever
comes, the loop is never left. -/
theorem promptLoop_invalid_answers (env : Env) (bad rest : List String) (resp : Response)
    (target : String) (n : Nat)
    (hbad : ∀ line ∈ bad, toLower line ≠ "y" ∧ toLower line ≠ "n") :
    promptLoop env (bad ++ rest) resp target n
      = (promptLoop env rest resp target n).after
          (List.replicate bad.length [Event.prompt, Event.invalidChoice]).flatten ∧
    promptLoop env bad resp target n
      = { ending := Ending.promptForever, target := target, probes := n,
          trace := (List.replicate bad.length [Event.prompt, Event.invalidChoice]).flatten } := by
  have key : ∀ rest : List String, promptLoop env (bad ++ rest) resp target n
      = (promptLoop env rest resp target n).after
          (List.replicate bad.length [Event.prompt, Event.invalidChoice]).flatten := by
    intro rest
    induction bad with
    | nil => rfl
    | cons line more ih =>
      have hl := hbad line (List.mem_cons_self _ _)
      rw [List.cons_append, promptLoop_invalid env line _ resp target n hl.1 hl.2,
        ih (fun l hm => hbad l (List.mem_cons_of_mem _ hm)), after_after]
      rfl
  refine ⟨key rest, ?_⟩
  have h := key []
  rw [List.append_nil] at h
  rw [h]
  simp [promptLoop, Negotiation.after]

/-- A run of C9: two invalid answers, then "Y". -/
theorem promptLoop_invalid_answers_witness :
    promptLoop (scriptedEnv [none, none]) (["maybe", ""] ++ ["Y"])
        { StatusCode := 301, Location := "https://b.example/" } "http://a.example" 1
      = (promptLoop (scriptedEnv [none, none]) ["Y"]
          { StatusCode := 301, Location := "https://b.example/" } "http://a.example" 1).after
          [Event.prompt, Event.invalidChoice, Event.prompt, Event.invalidChoice] :=
  (promptLoop_invalid_answers (scriptedEnv [none, none]) ["maybe", ""] ["Y"]
    { StatusCode := 301, Location := "https://b.example/" } "http://a.example" 1
    (by decide)).1

theorem char_toLower_eq (c : Char) :
    (c.toLower = 'y' ↔ c = 'y' ∨ c = 'Y') ∧ (c.toLower = 'n' ↔ c = 'n' ∨ c = 'N') := by
  by_cases h : c.toNat ≥ 65 ∧ c.toNat ≤ 90
  · obtain ⟨n, hn, rfl⟩ : ∃ n, (65 ≤ n ∧ n ≤ 90) ∧ c = Char.ofNat n :=
      ⟨c.toNat, h, (Char.ofNat_toNat c).symm⟩
    obtain ⟨h1, h2⟩ := hn
    interval_cases n <;> decide
  · have hc : c.toLower = c := by
      unfold Char.toLower
      simp only [h, if_false]
    rw [hc]
    constructor
    · constructor
      · exact Or.inl
      · rintro (h1 | rfl)
        · exact h1
        · exact absurd (by decide) h
    · constructor
      · exact Or.inl
      · rintro (h1 | rfl)
        · exact h1
        · exact absurd (by decide) h

/-- The answers that `checkAndSet` takes for "y" are `y` and `Y`, those it
takes for "n" are `n` and `N`. -/
theorem toLower_eq_answer (line : String) :
    (toLower line = "y" ↔ line = "y" ∨ line = "Y") ∧
    (toLower line = "n" ↔ line = "n" ∨ line = "N") := by
  have key : ∀ (l u : Char), (∀ c : Char, c.toLower = l ↔ c = l ∨ c = u) →
      (toLower line = String.mk [l] ↔ line = String.mk [l] ∨ line = String.mk [u]) := by
    intro l u hlu
    obtain ⟨cs⟩ := line
    unfold toLower
    simp only [String.ext_iff]
    match cs with
    | [] => simp
    | [c] => simp [hlu c]
    | _ :: _ :: _ => simp
  exact ⟨key 'y' 'Y' (fun c => (char_toLower_eq c).1), key 'n' 'N' (fun c => (char_toLower_eq c).2)⟩

theorem checkAndSetBody_first_events (env : Env)
    (loop : Response → String → Nat → Negotiation) (target : String) (n : Nat) :
    ∃ tail, (checkAndSetBody env loop target n).trace
      = Event.checking (protocolOf target) :: Event.head target :: tail := by
  unfold checkAndSetBody
  dsimp only
  split
  · exact ⟨_, rfl⟩
  · split <;> exact ⟨_, rfl⟩

theorem promptLoop_yes (env : Env) (line : String) (rest : List String) (resp : Response)
    (target : String) (n : Nat) (hy : toLower line = "y") :
    (promptLoop env (line :: rest) resp target n).target
      = (checkAndSet env rest (redirectTarget env resp.Location) n).target ∧
    (promptLoop env (line :: rest) resp target n).probes
      = (checkAndSet env rest (redirectTarget env resp.Location) n).probes ∧
    (promptLoop env (line :: rest) resp target n).trace
      = Event.prompt :: (checkAndSet env rest (redirectTarget env resp.Location) n).trace ∧
    (promptLoop env (line :: rest) resp target n).ending
      = (match (checkAndSet env rest (redirectTarget env resp.Location) n).ending with
         | Ending.returned _ => Ending.returned false
         | other => other) := by
  simp only [promptLoop, if_pos hy, checkAndSet]
  cases (checkAndSetBody env (promptLoop env rest) (redirectTarget env resp.Location) n).ending
    <;> exact ⟨rfl, rfl, rfl, rfl⟩

/-- C6 as stated fails for a `Location` that `url.Parse` accepts but that is not
an absolute URL: for the relative reference `/index.html` the parse succeeds
with an empty scheme and an empty host, and the new target is `://`, not the
raw `Location` value. -/
theorem relative_location_not_verbatim :
    urlParse "/index.html" = some { Scheme := "", Host := "" } ∧
    redirectTarget (scriptedEnv []) "/index.html" = "://" ∧
    redirectTarget (scriptedEnv []) "/index.html" ≠ "/index.html" ∧
    (checkAndSet (scriptedEnv [some (redirectTo 301 "/index.html")]) ["y"]
      "http://a.example" 0).target = "://" := by
  decide

/-- C6, amended: when `checkAndSet` has a response with status in 300..399 and
the user answers "y", the target is rewritten from the `Location` header and
negotiation then recurses on the rewritten target (its first request is a
`HEAD` of that target). If `url.Parse` accepts the `Location` value as an
absolute URL (non-empty scheme), the new target is the scheme, `://` and the
host, with path, query and fragment dropped; if `url.Parse` reports an error,
the new target is the raw `Location` value. -/
theorem redirect_rewrites_target (env : Env) (line : String) (rest : List String)
    (resp : Response) (target : String) (n : Nat)
    (hcode : 300 ≤ resp.StatusCode ∧ resp.StatusCode < 400) (hy : toLower line = "y") :
    (∀ parsedURL, env.parse resp.Location = some parsedURL → parsedURL.Scheme ≠ "" →
      redirectTarget env resp.Location = parsedURL.Scheme ++ "://" ++ parsedURL.Host) ∧
    (env.parse resp.Location = none → redirectTarget env resp.Location = resp.Location) ∧
    (afterResponse (promptLoop env (line :: rest)) resp target n).target
      = (checkAndSet env rest (redirectTarget env resp.Location) n).target ∧
    (afterResponse (promptLoop env (line :: rest)) resp target n).trace
      = [Event.ok, Event.redirection target resp.Location, Event.prompt]
        ++ (checkAndSet env rest (redirectTarget env resp.Location) n).trace ∧
    ∃ tail, (checkAndSet env rest (redirectTarget env resp.Location) n).trace
      = Event.checking (protocolOf (redirectTarget env resp.Location))
        :: Event.head (redirectTarget env resp.Location) :: tail := by
  have hloop := promptLoop_yes env line rest resp target n hy
  refine ⟨?_, ?_, ?_, ?_, checkAndSetBody_first_events env _ _ n⟩
  · intro parsedURL hp _
    simp only [redirectTarget, hp]
  · intro hp
    simp only [redirectTarget, hp]
  · simp only [afterResponse, if_pos hcode, Negotiation.after]
    exact hloop.1
  · simp only [afterResponse, if_pos hcode, Negotiation.after, hloop.2.2.1]
    rfl

/-- A run of amended C6, the scenario of the specification: `Location:
https://example.com/` and the answer "y" give the target `https://example.com`,
and negotiation goes on with a `HEAD` of it. -/
theorem redirect_rewrites_target_witness :
    redirectTarget followedRedirectEnv "https://example.com/" = "https://example.com" ∧
    (afterResponse (promptLoop followedRedirectEnv ["y"]) (redirectTo 301 "https://example.com/")
        "http://example.com" 1).target
      = (checkAndSet followedRedirectEnv []
          (redirectTarget followedRedirectEnv "https://example.com/") 1).target :=
  have h := redirect_rewrites_target followedRedirectEnv "y" []
    (redirectTo 301 "https://example.com/") "http://example.com" 1 (by decide) (by decide)
  ⟨h.1 { Scheme := "https", Host := "example.com" } (by decide) (by decide), h.2.2.1⟩

/-- In the round that `main` starts, two failed probes make `checkAndSet` return
the error and `main` return before the scan. -/
theorem main_returns_when_first_round_fails (env : Env) (memory : Nat)
    (file : Option String) (answers : List String) (get : Nat → Nat → String → Option Int) (flags : Flags)
    (dictionary : List String)
    (ht : startsWith flags.t "http://" = true ∨ startsWith flags.t "https://" = true)
    (hd : flags.d ≠ "") (hfile : readDictionary file = some dictionary)
    (h1 : env.head 0 flags.t = none)
    (h2 : env.head 1 (flipProtocol flags.t (protocolOf flags.t)).1 = none) :
    (checkAndSet env answers flags.t 0).ending = Ending.returned true ∧
    main env memory file answers get flags = MainEnding.noConnection := by
  have hneg : (checkAndSet env answers flags.t 0).ending = Ending.returned true := by
    simp only [checkAndSet, checkAndSetBody, h1, h2]
  have htne : flags.t ≠ "" := by
    intro h0
    rw [h0] at ht
    revert ht
    decide
  have hpre : (!startsWith flags.t "http://" && !startsWith flags.t "https://") = false := by
    rcases ht with h | h <;> simp [h]
  refine ⟨hneg, ?_⟩
  unfold main
  simp only [hpre, hd, htne, hfile, hneg]
  simp

/-- In a round entered by following a redirect, two failed probes are reported
(the last event is `noConnection`), but the prompt loop that made the call
ends with `return nil`. -/
theorem promptLoop_drops_inner_error (env : Env) (line : String) (rest : List String)
    (resp : Response) (target : String) (n : Nat) (hy : toLower line = "y")
    (h1 : env.head n (redirectTarget env resp.Location) = none)
    (h2 : env.head (n + 1) (flipProtocol (redirectTarget env resp.Location)
      (protocolOf (redirectTarget env resp.Location))).1 = none) :
    (checkAndSet env rest (redirectTarget env resp.Location) n).ending = Ending.returned true ∧
    (promptLoop env (line :: rest) resp target n).ending = Ending.returned false ∧
    (promptLoop env (line :: rest) resp target n).trace.getLast? = some Event.noConnection := by
  have hinner : (checkAndSet env rest (redirectTarget env resp.Location) n).ending
      = Ending.returned true := by
    simp only [checkAndSet, checkAndSetBody, h1, h2]
  have hloop := promptLoop_yes env line rest resp target n hy
  refine ⟨hinner, ?_, ?_⟩
  · rw [hloop.2.2.2, hinner]
  · rw [hloop.2.2.1]
    simp only [checkAndSet, checkAndSetBody, h1, h2]
    rfl

/-- C5 fails in a round entered by following a redirect. `http://a.example`
answers 301 with `Location: https://b.example/`, the user answers "y", and both
`https://b.example` and `http://b.example` fail to connect: the inner call of
`checkAndSet` reports that no connection could be established and returns the
error, but the call at line 317 drops it; the call made by `main` returns nil
and `main` goes on to the scan, where the worker sends one `Result`. -/
theorem nested_connection_failure_is_dropped :
    checkAndSet deadRedirectEnv ["y"] "http://a.example" 0
      = { ending := Ending.returned false, target := "http://b.example", probes := 3,
          trace := [Event.checking "HTTP", Event.head "http://a.example", Event.ok,
            Event.redirection "http://a.example" "https://b.example/", Event.prompt,
            Event.checking "HTTPS", Event.head "https://b.example", Event.failed,
            Event.checking "HTTP", Event.head "http://b.example", Event.failed,
            Event.noConnection] } ∧
    (checkAndSet (scriptedEnv [none, none]) [] "https://b.example" 0).ending
      = Ending.returned true ∧
    main deadRedirectEnv (2 ^ 30) (some "/admin\n") ["y"] (fun _ _ _ => none)
        { d := "words.txt", t := "http://a.example", w := 1 }
      = MainEnding.scanned "http://b.example"
          [[{ URL := "http://b.example/admin", Status := 404 }]] := by
  decide

theorem startsWith_iff (s pre : String) :
    startsWith s pre = true ↔ ∃ rest, s.data = pre.data ++ rest := by
  unfold startsWith
  rw [List.isPrefixOf_iff_prefix]
  exact ⟨fun ⟨rest, h⟩ => ⟨rest, h.symm⟩, fun ⟨rest, h⟩ => ⟨rest, h.symm⟩⟩

theorem replaceFirstChars_of_append (old new rest : List Char) :
    replaceFirstChars old new (old ++ rest) = new ++ rest := by
  cases h : old ++ rest with
  | nil =>
    obtain ⟨ho, hr⟩ := List.append_eq_nil.mp h
    simp [replaceFirstChars, ho, hr]
  | cons c cs =>
    have hp : old.isPrefixOf (c :: cs) = true := by
      rw [List.isPrefixOf_iff_prefix, ← h]
      exact List.prefix_append _ _
    simp only [replaceFirstChars, hp, if_true]
    rw [← h, List.drop_left]

/-- The inversion of the protocol (lines 272-278) keeps the target beginning
with `http://` or `https://`. -/
theorem flipProtocol_keeps_scheme (target : String)
    (h : startsWith target "http://" = true ∨ startsWith target "https://" = true) :
    startsWith (flipProtocol target (protocolOf target)).1 "http://" = true ∨
    startsWith (flipProtocol target (protocolOf target)).1 "https://" = true := by
  by_cases hs : startsWith target "https://" = true
  · left
    obtain ⟨rest, hrest⟩ := (startsWith_iff _ _).mp hs
    have hproto : protocolOf target = "HTTPS" := by unfold protocolOf; rw [if_pos hs]
    rw [hproto, flipProtocol, if_pos rfl, startsWith_iff]
    exact ⟨rest, by simp only [replaceFirst, hrest, replaceFirstChars_of_append]⟩
  · right
    have hp : startsWith target "http://" = true := h.resolve_right hs
    obtain ⟨rest, hrest⟩ := (startsWith_iff _ _).mp hp
    have hproto : protocolOf target = "HTTP" := by unfold protocolOf; rw [if_neg hs]
    have hne : ("HTTP" : String) ≠ "HTTPS" := by decide
    rw [hproto, flipProtocol, if_neg hne, startsWith_iff]
    exact ⟨rest, by simp only [replaceFirst, hrest, replaceFirstChars_of_append]⟩

/-- C7 fails when a followed redirect has a `Location` without the scheme
`http` or `https`. The target `http://a.example` passes the check of `main`;
the server answers 302 with the relative `Location: /login` and the user
answers "y": line 311 sets the target to `://`, the recursive call cannot
connect, `checkAndSet` returns nil with the target `://`, which begins with
neither `http://` nor `https://`, and `main` scans with it. -/
theorem redirect_breaks_target_scheme :
    startsWith "http://a.example" "http://" = true ∧
    (checkAndSet relativeRedirectEnv ["y"] "http://a.example" 0).ending
      = Ending.returned false ∧
    (checkAndSet relativeRedirectEnv ["y"] "http://a.example" 0).target = "://" ∧
    startsWith (checkAndSet relativeRedirectEnv ["y"] "http://a.example" 0).target "http://"
      = false ∧
    startsWith (checkAndSet relativeRedirectEnv ["y"] "http://a.example" 0).target "https://"
      = false ∧
    main relativeRedirectEnv (2 ^ 30) (some "/admin\n") ["y"] (fun _ _ _ => none)
        { d := "words.txt", t := "http://a.example", w := 1 }
      = MainEnding.scanned "://" [[{ URL := ":///admin", Status := 404 }]] := by
  decide

/-! ## Facts about `readDictionary` -/

theorem byteLen_append (a b : List Char) : byteLen (a ++ b) = byteLen a + byteLen b := by
  simp [byteLen]

theorem scanLines_line (cur line rest : List Char) (hline : '\n' ∉ line) :
    scanLines cur (line ++ '\n' :: rest)
      = if MaxScanTokenSize ≤ byteLen (cur ++ line) then none
        else match scanLines [] rest with
          | none => none
          | some lines => some (⟨dropCR (cur ++ line)⟩ :: lines) := by
  induction line generalizing cur with
  | nil => simp [scanLines]
  | cons c cs ih =>
    have hc : c ≠ '\n' := fun h => hline (h ▸ List.mem_cons_self _ _)
    have hcs : '\n' ∉ cs := fun h => hline (List.mem_cons_of_mem _ h)
    rw [List.cons_append, scanLines, if_neg hc, ih (cur ++ [c]) hcs, List.append_assoc]
    rfl

theorem scanLines_last (cur line : List Char) (hline : '\n' ∉ line) :
    scanLines cur line
      = if cur ++ line = [] then some []
        else if MaxScanTokenSize ≤ byteLen (cur ++ line) then none
        else some [⟨dropCR (cur ++ line)⟩] := by
  induction line generalizing cur with
  | nil => simp [scanLines]
  | cons c cs ih =>
    have hc : c ≠ '\n' := fun h => hline (h ▸ List.mem_cons_self _ _)
    have hcs : '\n' ∉ cs := fun h => hline (List.mem_cons_of_mem _ h)
    rw [scanLines, if_neg hc, ih (cur ++ [c]) hcs, List.append_assoc]
    rfl

theorem dropCR_append_cr (line : List Char) : dropCR (line ++ ['\r']) = line := by
  simp [dropCR]

theorem dropCR_of_no_cr (line : List Char) (h : line.getLast? ≠ some '\r') :
    dropCR line = line := by
  simp [dropCR, h]

theorem scanLines_rows (rows : List (String × Bool)) (tail : List Char)
    (hrows : ∀ row ∈ rows, '\n' ∉ row.1.data ∧
      (row.2 = false → row.1.data.getLast? ≠ some '\r') ∧
      byteLen row.1.data + (if row.2 then 1 else 0) < MaxScanTokenSize) :
    scanLines []
        ((rows.map (fun row => row.1.data ++ (if row.2 then ['\r', '\n'] else ['\n']))).flatten
          ++ tail)
      = match scanLines [] tail with
        | none => none
        | some lines => some (rows.map (fun row => row.1) ++ lines) := by
  induction rows with
  | nil => cases h : scanLines [] tail <;> simp [h]
  | cons row more ih =>
    obtain ⟨hnl, hcr, hlen⟩ := hrows row (List.mem_cons_self _ _)
    have ih2 := ih (fun r hr => hrows r (List.mem_cons_of_mem _ hr))
    obtain ⟨line, crlf⟩ := row
    simp only [List.map_cons, List.flatten_cons, List.append_assoc]
    cases crlf with
    | false =>
      simp only [Bool.false_eq_true, if_false, Nat.add_zero] at hlen ⊢
      rw [List.singleton_append, scanLines_line [] line.data _ hnl, List.nil_append,
        if_neg (by omega), ih2, dropCR_of_no_cr _ (hcr rfl)]
      cases scanLines [] tail <;> rfl
    | true =>
      simp only [if_true] at hlen ⊢
      have hnl2 : '\n' ∉ line.data ++ ['\r'] := by
        intro hmem
        rcases List.mem_append.mp hmem with h | h
        · exact hnl h
        · simp at h
      have hsplit : ['\r', '\n'] ++ ((more.map (fun row => row.1.data ++
          (if row.2 then ['\r', '\n'] else ['\n']))).flatten ++ tail)
          = ['\r'] ++ '\n' :: ((more.map (fun row => row.1.data ++
          (if row.2 then ['\r', '\n'] else ['\n']))).flatten ++ tail) := rfl
      have hb : byteLen (line.data ++ ['\r']) = byteLen line.data + 1 := by
        rw [byteLen_append]; rfl
      rw [hsplit, ← List.append_assoc, scanLines_line [] _ _ hnl2, List.nil_append, hb,
        if_neg (by omega), ih2, dropCR_append_cr]
      cases scanLines [] tail <;> rfl

/-- A file whose only line has 64 KiB or more makes `readDictionary` return an
error (`bufio.ErrTooLong`). -/
theorem readDictionary_line_too_long (n : Nat) (hn : MaxScanTokenSize ≤ n) :
    readDictionary (some ⟨List.replicate n 'a'⟩) = none := by
  have hnl : '\n' ∉ List.replicate n 'a' := by
    intro h
    have := List.eq_of_mem_replicate h
    revert this
    decide
  have hlen : byteLen (List.replicate n 'a') = n := by
    have h1 : 'a'.utf8Size = 1 := by decide
    simp [byteLen, List.map_replicate, List.sum_replicate, h1]
  have hne : List.replicate n 'a' ≠ [] := by
    intro h
    have h0 : (List.replicate n 'a').length = 0 := by rw [h]; rfl
    rw [List.length_replicate] at h0
    have : 0 < MaxScanTokenSize := by decide
    omega
  unfold readDictionary
  simp only []
  rw [scanLines_last [] _ hnl, List.nil_append, if_neg hne, hlen, if_pos hn]

theorem exists_line_and_cr (seg : List Char) :
    ∃ (line : List Char) (cr : Bool), seg = line ++ (if cr then ['\r'] else []) ∧
      (cr = false → line.getLast? ≠ some '\r') := by
  by_cases h : seg.getLast? = some '\r'
  · refine ⟨seg.dropLast, true, ?_, fun hc => (by cases hc)⟩
    have := List.dropLast_append_getLast? '\r' h
    simpa using this.symm
  · exact ⟨seg, false, by simp, fun _ => h⟩

theorem exists_segments (content : List Char) :
    ∃ (segs : List (List Char)) (tail : List Char),
      content = (segs.map (fun seg => seg ++ ['\n'])).flatten ++ tail ∧
      (∀ seg ∈ segs, '\n' ∉ seg) ∧ '\n' ∉ tail := by
  induction content with
  | nil => exact ⟨[], [], rfl, fun _ h => (by cases h), fun h => (by cases h)⟩
  | cons c cs ih =>
    obtain ⟨segs, tail, hcs, hsegs, htail⟩ := ih
    by_cases hc : c = '\n'
    · refine ⟨[] :: segs, tail, by simp [hcs, hc], ?_, htail⟩
      intro seg hseg
      rcases List.mem_cons.mp hseg with rfl | h
      · exact fun h => (by cases h)
      · exact hsegs seg h
    · cases segs with
      | nil =>
        refine ⟨[], c :: tail, by simp [hcs], fun _ h => (by cases h), ?_⟩
        intro h
        rcases List.mem_cons.mp h with h | h
        · exact hc h.symm
        · exact htail h
      | cons seg more =>
        refine ⟨(c :: seg) :: more, tail, by simp [hcs], ?_, htail⟩
        intro s hs
        rcases List.mem_cons.mp hs with rfl | h
        · intro hmem
          rcases List.mem_cons.mp hmem with h | h
          · exact hc h.symm
          · exact hsegs seg (List.mem_cons_self _ _) h
        · exact hsegs s (List.mem_cons_of_mem _ h)

theorem exists_rows (segs : List (List Char)) (hsegs : ∀ seg ∈ segs, '\n' ∉ seg) :
    ∃ rows : List (String × Bool),
      segs.map (fun seg => seg ++ ['\n'])
        = rows.map (fun row => row.1.data ++ (if row.2 then ['\r', '\n'] else ['\n'])) ∧
      ∀ row ∈ rows, '\n' ∉ row.1.data ∧ (row.2 = false → row.1.data.getLast? ≠ some '\r') := by
  induction segs with
  | nil => exact ⟨[], rfl, fun _ h => (by cases h)⟩
  | cons seg more ih =>
    obtain ⟨rows, hrows, hprop⟩ := ih (fun s hs => hsegs s (List.mem_cons_of_mem _ hs))
    obtain ⟨line, cr, hseg, hcr⟩ := exists_line_and_cr seg
    have hnl : '\n' ∉ line := by
      intro h
      apply hsegs seg (List.mem_cons_self _ _)
      rw [hseg]
      exact List.mem_append_left _ h
    refine ⟨(⟨line⟩, cr) :: rows, ?_, ?_⟩
    · simp only [List.map_cons, hrows, hseg]
      cases cr <;> simp
    · intro row hrow
      rcases List.mem_cons.mp hrow with rfl | h
      · exact ⟨hnl, hcr⟩
      · exact hprop row h

/-- Every text is a file in the sense of `fileOf`: lines without `\n`, each
ended by `\n` or `\r\n`, and a last line without `\n`, with or without a final
`\r`. -/
theorem every_file_is_fileOf (content : String) :
    ∃ (rows : List (String × Bool)) (last : String) (lastCR : Bool),
      content = fileOf rows last lastCR ∧
      (∀ row ∈ rows, '\n' ∉ row.1.data ∧ (row.2 = false → row.1.data.getLast? ≠ some '\r')) ∧
      '\n' ∉ last.data ∧ (lastCR = false → last.data.getLast? ≠ some '\r') := by
  obtain ⟨segs, tail, hcontent, hsegs, htail⟩ := exists_segments content.data
  obtain ⟨rows, hrows, hprop⟩ := exists_rows segs hsegs
  obtain ⟨line, cr, hline, hcr⟩ := exists_line_and_cr tail
  have hnl : '\n' ∉ line := by
    intro h
    apply htail
    rw [hline]
    exact List.mem_append_left _ h
  refine ⟨rows, ⟨line⟩, cr, ?_, hprop, hnl, hcr⟩
  apply String.ext
  rw [hcontent, hrows, hline]
  rfl

/-- C8 as stated fails: the lines of a file are returned as they are, so an
empty line gives an empty entry and a line with blanks around it gives an entry
that is not trimmed. -/
theorem readDictionary_keeps_empty_and_untrimmed :
    readDictionary (some "admin\n\n img \nlogin\n") = some ["admin", "", " img ", "login"] ∧
    ¬ ∀ entry ∈ (readDictionary (some "admin\n\n img \nlogin\n")).getD [],
        entry ≠ "" ∧ entry.data.head? ≠ some ' ' ∧ entry.data.getLast? ≠ some ' ' := by
  refine ⟨by decide, ?_⟩
  intro h
  have h1 : readDictionary (some "admin\n\n img \nlogin\n")
      = some ["admin", "", " img ", "login"] := by decide
  rw [h1] at h
  exact (h "" (by simp)).1 rfl

/-- C8, amended: for every readable dictionary file in which no line reaches
the 64 KiB token limit of `bufio.Scanner`, `readDictionary` returns without
error the lines of the file in file order, each without its line terminator
(`\n` or `\r\n`; for a last line that has no `\n`, a `\r` at the very end of
the file) and otherwise unchanged: empty lines are kept and no blank is
trimmed. A last line without `\n` is returned unless nothing at all follows
the last `\n`. -/
theorem readDictionary_returns_lines (rows : List (String × Bool)) (last : String)
    (lastCR : Bool)
    (hrows : ∀ row ∈ rows, '\n' ∉ row.1.data ∧
      (row.2 = false → row.1.data.getLast? ≠ some '\r') ∧
      byteLen row.1.data + (if row.2 then 1 else 0) < MaxScanTokenSize)
    (hlast : '\n' ∉ last.data ∧ (lastCR = false → last.data.getLast? ≠ some '\r') ∧
      byteLen last.data + (if lastCR then 1 else 0) < MaxScanTokenSize) :
    readDictionary (some (fileOf rows last lastCR))
      = some (rows.map (fun row => row.1)
          ++ (if last = "" ∧ lastCR = false then [] else [last])) := by
  obtain ⟨hnl, hcr, hlen⟩ := hlast
  unfold readDictionary fileOf
  simp only []
  rw [scanLines_rows rows _ hrows]
  cases lastCR with
  | false =>
    simp only [Bool.false_eq_true, if_false, Nat.add_zero, List.append_nil, and_true] at hlen ⊢
    rw [scanLines_last [] last.data hnl, List.nil_append]
    by_cases hempty : last = ""
    · have hd : last.data = [] := by rw [hempty]
      rw [if_pos hd, if_pos hempty]
    · have hd : last.data ≠ [] := fun h => hempty (String.ext h)
      rw [if_neg hd, if_neg (by omega), if_neg hempty, dropCR_of_no_cr _ (hcr rfl)]
  | true =>
    simp only [if_true, Bool.true_eq_false, and_false, if_false] at hlen ⊢
    have hnl2 : '\n' ∉ last.data ++ ['\r'] := by
      intro hmem
      rcases List.mem_append.mp hmem with h | h
      · exact hnl h
      · simp at h
    have hb : byteLen (last.data ++ ['\r']) = byteLen last.data + 1 := by
      rw [byteLen_append]; rfl
    have hne : last.data ++ ['\r'] ≠ [] := by simp
    rw [scanLines_last [] _ hnl2, List.nil_append, if_neg hne, hb, if_neg (by omega),
      dropCR_append_cr]

/-- A run of amended C8: a file with an empty line, an untrimmed line ended by
`\r\n`, and a last line without `\n` that ends in `\r`. -/
theorem readDictionary_returns_lines_witness :
    readDictionary (some (fileOf [("admin", false), ("", false), (" img ", true)] "login" true))
      = some ["admin", "", " img ", "login"] :=
  readDictionary_returns_lines [("admin", false), ("", false), (" img ", true)] "login" true
    (by decide) (by decide)

end Gobuster
